import Mathlib

/-!
A shallow embedding of the Romanized-Nepali-to-Devanagari transliteration
engine of `src/pages/english_to_nepali_converter.py`, with theorems settling
the specification claims about it.

Modelling conventions:
* Python strings are `List Char`.
* A Python computation that may raise is modelled as `Except PyErr`;
  a loop that may not terminate is driven by explicit fuel, wrapped in
  `Option`, where `none` means the fuel was exhausted.  `PyRes` combines
  the two layers.
* The nested function `push_consonant` of `translit_syllables` assigns to
  `out` (`out += ...`) without declaring `nonlocal out`; in Python every
  one of its branches therefore raises `UnboundLocalError` when executed.
  Calls to `push_consonant` are accordingly embedded as
  `Except.error PyErr.unboundLocal`.
-/

/-- Python runtime errors the engine can raise. -/
inductive PyErr where
  | unboundLocal : PyErr
deriving DecidableEq, Repr

/-- Result of a fuelled Python computation: `none` models fuel exhaustion
(used for the possibly divergent segmenter loop), `some (Except.error e)` a
raised exception, `some (Except.ok v)` a normal return. -/
abbrev PyRes (α : Type) := Option (Except PyErr α)

deriving instance DecidableEq for Except

/-- ZWNJ, the zero width non-joiner U+200C (`ZWNJ` in the source). -/
def ZWNJ : Char := '\u200C'

/-- ZWJ, the zero width joiner U+200D (`ZWJ` in the source). -/
def ZWJ : Char := '\u200D'

/-- The halant / virama U+094D (`HALANT` in the source). -/
def HALANT : Char := '्'

/-- The anusvara sign U+0902, emitted by the nasalization shortcut. -/
def ANUSVARA : Char := 'ं'

/-- Pair of strings as character lists, used to transcribe the token tables. -/
def kv (a b : String) : List Char × List Char := (a.data, b.data)

/-- The `VOWELS` table of the source (independent vowel letters), in
declaration order. -/
def VOWELS : List (List Char × List Char) :=
  [kv "a" "अ", kv "aa" "आ", kv "A" "आ",
   kv "i" "इ", kv "ee" "ई", kv "I" "ई",
   kv "u" "उ", kv "oo" "ऊ", kv "U" "ऊ",
   kv "e" "ए", kv "ai" "ऐ",
   kv "o" "ओ", kv "au" "औ",
   kv "rri" "ऋ", kv "rree" "ॠ"]

/-- The `MATRAS` table of the source (dependent vowel signs; `a` maps to the
empty string). -/
def MATRAS : List (List Char × List Char) :=
  [kv "a" "", kv "aa" "ा", kv "A" "ा",
   kv "i" "ि", kv "ee" "ी", kv "I" "ी",
   kv "u" "ु", kv "oo" "ू", kv "U" "ू",
   kv "e" "े", kv "ai" "ै",
   kv "o" "ो", kv "au" "ौ",
   kv "rri" "ृ", kv "rree" "ॄ"]

/-- The `CONSONANTS` table of the source, in declaration order. -/
def CONSONANTS : List (List Char × List Char) :=
  [kv "k" "क", kv "kh" "ख", kv "g" "ग", kv "gh" "घ", kv "x" "क्ष",
   kv "c" "च", kv "ch" "च", kv "chh" "छ", kv "j" "ज", kv "jh" "झ",
   kv "ny" "ञ", kv "yna" "ञ",
   kv "t" "त", kv "th" "थ", kv "d" "द", kv "dh" "ध", kv "n" "न",
   kv "ta" "त", kv "tha" "थ", kv "da" "द", kv "dha" "ध", kv "na" "न",
   kv "T" "ट", kv "Th" "ठ", kv "D" "ड", kv "Dh" "ढ", kv "N" "ण",
   kv "Ta" "ट", kv "Tha" "ठ", kv "Da" "ड", kv "Dha" "ढ", kv "Na" "ण",
   kv "p" "प", kv "ph" "फ", kv "b" "ब", kv "bh" "भ", kv "m" "म",
   kv "y" "य", kv "r" "र", kv "l" "ल", kv "w" "व", kv "v" "व",
   kv "s" "स", kv "sh" "श", kv "Sh" "ष", kv "h" "ह",
   kv "ksha" "क्ष", kv "gya" "ज्ञ"]

/-- The `SPECIALS` table of the source; the value of `rr` is the string
`"र" + HALANT + ZWJ`. -/
def SPECIALS : List (List Char × List Char) :=
  [kv "*" "ं", kv "**" "ँ", kv "om" "ॐ",
   kv "rr" "र्‍",
   kv "ri^" "रि"]

/-- The `LEXICON` table of the source: whole-word overrides, keyed by
lowercase words, in declaration order. -/
def LEXICON : List (List Char × List Char) :=
  [kv "ke" "के", kv "ko" "को", kv "le" "ले", kv "laai" "लाई", kv "lai" "लाई",
   kv "ra" "र", kv "ho" "हो", kv "huncha" "हुन्छ", kv "hunchha" "हुन्छ", kv "hucha" "हुन्छ",
   kv "cha" "छ", kv "chha" "छ", kv "xa" "छ", kv "xha" "छ",
   kv "chan" "छन्", kv "chu" "छु", kv "chhau" "छौँ", kv "chhau\u0304" "छौँ",
   kv "chhaen" "छैन", kv "chaina" "छैन", kv "chhaina" "छैन", kv "xaina" "छैन",
   kv "raichha" "रैछ", kv "raicha" "रैछ", kv "raixa" "रैछ",
   kv "k" "के", kv "kha" "खा", kv "kasto" "कस्तो", kv "ramro" "राम्रो",
   kv "dherai" "धेरै", kv "sabai" "सबै", kv "huney" "हुने", kv "hune" "हुने",
   kv "ma" "म", kv "hamro" "हाम्रो", kv "hamrai" "हाम्रोै", kv "mero" "मेरो",
   kv "timi" "तिमी", kv "tapai" "तपाईं", kv "tapai\u0304" "तपाईं",
   kv "hya" "हया"]

/-- Stable insertion of a key into a list already processed by the sort of
`get_token_order`: the key goes in front of the first element whose length
does not exceed its own, so among equal-length keys the earlier-declared one
stays first. -/
def insertByLen (a : List Char) : List (List Char) → List (List Char)
  | [] => [a]
  | b :: l => if b.length ≤ a.length then a :: b :: l else b :: insertByLen a l

/-- Embedding of `get_token_order` of the source, i.e. of Python's
`sorted(dictionary.keys(), key=len, reverse=True)`: a stable sort of the
keys by descending length (Python's `sorted` is guaranteed stable, also
with `reverse=True`), realised as a stable insertion sort. -/
def get_token_order (keys : List (List Char)) : List (List Char) :=
  keys.foldr insertByLen []

/-- `V_ORDER` of the source. -/
def V_ORDER : List (List Char) := get_token_order (VOWELS.map Prod.fst)

/-- `C_ORDER` of the source. -/
def C_ORDER : List (List Char) := get_token_order (CONSONANTS.map Prod.fst)

/-- `S_ORDER` of the source. -/
def S_ORDER : List (List Char) := get_token_order (SPECIALS.map Prod.fst)

/-- Embedding of `is_alpha_num` of the source,
`re.match(r'[A-Za-z0-9]', ch)` on a single character. -/
def is_alpha_num (c : Char) : Bool :=
  decide ('A' ≤ c ∧ c ≤ 'Z') || decide ('a' ≤ c ∧ c ≤ 'z') || decide ('0' ≤ c ∧ c ≤ '9')

/-- An ASCII letter, the character class `[A-Za-z]` of the word-splitting
regular expression in `translit_nep`. -/
def isAsciiLetter (c : Char) : Bool :=
  decide ('A' ≤ c ∧ c ≤ 'Z') || decide ('a' ≤ c ∧ c ≤ 'z')

/-- Python's `str.lower` on one character, for the ASCII range (the only
characters `replace_word` ever lowercases, since its argument is a maximal
`[A-Za-z]+` run). -/
def pyLowerChar (c : Char) : Char :=
  if 'A' ≤ c ∧ c ≤ 'Z' then Char.ofNat (c.toNat + 32) else c

/-- `k.leadsWith s`: Python's `s.startswith(k, i)` with `s` already cut to
the suffix beginning at `i`. -/
def leadsWith : List Char → List Char → Bool
  | [], _ => true
  | _ :: _, [] => false
  | a :: ks, b :: ss => a == b && leadsWith ks ss

/-- First key of the (pre-ordered) key list that matches at the cursor:
the loops `for k in C_ORDER: if s.startswith(k, idx): return k` of
`peek_consonant_key` / `peek_vowel_key` and the specials loop. -/
def firstMatchKey (ord : List (List Char)) (s : List Char) : Option (List Char) :=
  ord.find? (fun k => leadsWith k s)

/-- Python dict lookup `tab[k]` on an association list (all lookups in the
engine are on keys known to be present; the default is never reached).
Also covers `MATRAS.get(vowel_key, "")`. -/
def lookupTab (t : List (List Char × List Char)) (k : List Char) : List Char :=
  match t.find? (fun p => p.1 == k) with
  | some p => p.2
  | none => []

/-- The character class `[kgcjqtdpbshx]` with `re.IGNORECASE`, applied by the
nasalization shortcut to `s[i+1]` (always an ASCII letter on the engine's
actual inputs). -/
def nasalClass (c : Char) : Bool :=
  ['k', 'g', 'c', 'j', 'q', 't', 'd', 'p', 'b', 's', 'h', 'x'].contains (pyLowerChar c)

/-- Whether the character after the cursor exists and is in the nasalization
class: `i + 1 < len(s) and re.match(r'[kgcjqtdpbshx]', s[i+1], re.IGNORECASE)`. -/
def nasalNext : List Char → Bool
  | [] => false
  | c :: _ => nasalClass c

/-- The scanning loop of `translit_syllables`, parametrized by the specials
match order and table it consults (the source reads the globals `S_ORDER`
and `SPECIALS`; the claims also need the variant with the `*` entries
removed).  The remaining state is the unread suffix of the token and the
output accumulated so far.  Branches are in source order: `/`, `\`,
punctuation pass-through, specials, nasalization shortcut, consonant (whose
`push_consonant` calls raise `UnboundLocalError`, see the file comment),
standalone vowel, fallback pass-through. -/
def ts_engine (sOrd : List (List Char)) (sTab : List (List Char × List Char)) :
    Nat → List Char → List Char → PyRes (List Char)
  | 0, _, _ => none
  | _ + 1, [], out => some (Except.ok out)
  | fuel + 1, ch :: rs, out =>
    if ch = '/' then
      ts_engine sOrd sTab fuel rs (out ++ [ZWNJ])
    else if ch = '\\' then
      ts_engine sOrd sTab fuel rs (out ++ [HALANT])
    else if is_alpha_num ch = false ∧ ch ≠ '*' then
      ts_engine sOrd sTab fuel rs (out ++ [ch])
    else
      match firstMatchKey sOrd (ch :: rs) with
      | some k =>
        ts_engine sOrd sTab fuel (List.drop k.length (ch :: rs)) (out ++ lookupTab sTab k)
      | none =>
        if (ch = 'n' ∨ ch = 'm') ∧ nasalNext rs = true then
          ts_engine sOrd sTab fuel rs (out ++ [ANUSVARA])
        else
          match firstMatchKey C_ORDER (ch :: rs) with
          | some ck =>
            match firstMatchKey V_ORDER (List.drop ck.length (ch :: rs)) with
            | some _ => some (Except.error PyErr.unboundLocal)
            | none =>
              match firstMatchKey C_ORDER (List.drop ck.length (ch :: rs)) with
              | some _ =>
                ts_engine sOrd sTab fuel (List.drop ck.length (ch :: rs))
                  (out ++ lookupTab CONSONANTS ck ++ [HALANT])
              | none => some (Except.error PyErr.unboundLocal)
          | none =>
            match firstMatchKey V_ORDER (ch :: rs) with
            | some vk =>
              ts_engine sOrd sTab fuel (List.drop vk.length (ch :: rs))
                (out ++ lookupTab VOWELS vk)
            | none => ts_engine sOrd sTab fuel rs (out ++ [ch])

/-- Embedding of `translit_syllables` of the source.  Every loop iteration
consumes at least one character (every table key is nonempty), so fuel
`length + 1` always suffices; the fuel layer is inherited from `PyRes`. -/
def translit_syllables (s : List Char) : PyRes (List Char) :=
  ts_engine S_ORDER SPECIALS (s.length + 1) s []

/-- The `SPECIALS` table without its `*` and `**` entries, used to state that
those entries can never fire on the resolver's call path (claim C4). -/
def SPECIALS_NS : List (List Char × List Char) :=
  [kv "om" "ॐ", kv "rr" "र्‍", kv "ri^" "रि"]

/-- Match order of `SPECIALS_NS`. -/
def S_ORDER_NS : List (List Char) := get_token_order (SPECIALS_NS.map Prod.fst)

/-- The syllable engine run against the star-less specials table. -/
def translit_syllablesNS (s : List Char) : PyRes (List Char) :=
  ts_engine S_ORDER_NS SPECIALS_NS (s.length + 1) s []

/-- Embedding of `replace_word` inside `translit_nep`: lowercase the matched
word, consult the lexicon, otherwise run the syllable engine on the word in
its original casing. -/
def replace_word (w : List Char) : PyRes (List Char) :=
  match LEXICON.find? (fun p => p.1 == w.map pyLowerChar) with
  | some p => some (Except.ok p.2)
  | none => translit_syllables w

/-- The variant of `replace_word` whose engine uses the star-less specials
table. -/
def replace_wordNS (w : List Char) : PyRes (List Char) :=
  match LEXICON.find? (fun p => p.1 == w.map pyLowerChar) with
  | some p => some (Except.ok p.2)
  | none => translit_syllablesNS w

/-- Embedding of `re.sub(r'[A-Za-z]+', repl, s)`: maximal ASCII-letter runs
are replaced by `repl`, every other character is copied through; an
exception raised by `repl` propagates.  `re.sub` takes the replacement
function as an argument, hence the parameter. -/
def py_sub_letters (repl : List Char → PyRes (List Char)) :
    Nat → List Char → PyRes (List Char)
  | 0, _ => none
  | _ + 1, [] => some (Except.ok [])
  | fuel + 1, c :: rs =>
    if isAsciiLetter c then
      match repl ((c :: rs).takeWhile isAsciiLetter) with
      | none => none
      | some (Except.error e) => some (Except.error e)
      | some (Except.ok w) =>
        (py_sub_letters repl fuel ((c :: rs).dropWhile isAsciiLetter)).map
          (Except.map (fun r => w ++ r))
    else
      (py_sub_letters repl fuel rs).map (Except.map (fun r => c :: r))

/-- Embedding of `translit_nep` of the source.  Each step of
`py_sub_letters` consumes at least one character, so fuel `length + 1`
always suffices. -/
def translit_nep (s : List Char) : PyRes (List Char) :=
  py_sub_letters replace_word (s.length + 1) s

/-- The word resolver with the star-less syllable engine. -/
def translit_nepNS (s : List Char) : PyRes (List Char) :=
  py_sub_letters replace_wordNS (s.length + 1) s

/-- A span produced by the segmenter: `raw` for brace-delimited literal
text, `nep` for transliterable text. -/
inductive Seg where
  | raw : List Char → Seg
  | nep : List Char → Seg
deriving DecidableEq, Repr

/-- The segmenting `while` loop of `transliterate`, on the unread suffix of
the input.  When the head is a literal opener with a later closer, the text
strictly between them becomes one `raw` span and scanning resumes after the
closer.  Otherwise the text up to the next opener (possibly none: Python's
`find('{', i)` starts at the current position, so an opener at the head with
no later closer yields an empty `nep` span and an unchanged suffix — the
loop then never terminates, which `none` reports at every fuel. -/
def segLoop : Nat → List Char → List Seg → Option (List Seg)
  | 0, _, _ => none
  | _ + 1, [], acc => some acc
  | fuel + 1, ch :: rest, acc =>
    if ch = '\x7b' ∧ '\x7d' ∈ rest then
      segLoop fuel ((rest.dropWhile (fun c => c != '\x7d')).tail)
        (acc ++ [Seg.raw (rest.takeWhile (fun c => c != '\x7d'))])
    else
      match (ch :: rest).dropWhile (fun c => c != '\x7b') with
      | [] => some (acc ++ [Seg.nep (ch :: rest)])
      | _ :: _ =>
        segLoop fuel ((ch :: rest).dropWhile (fun c => c != '\x7b'))
          (acc ++ [Seg.nep ((ch :: rest).takeWhile (fun c => c != '\x7b'))])

/-- Rendering of the segment list, the final line of `transliterate`:
`raw` spans verbatim, `nep` spans through `translit_nep`, concatenated
left to right with the first raised exception propagating. -/
def renderSegs : List Seg → PyRes (List Char)
  | [] => some (Except.ok [])
  | Seg.raw t :: segs => (renderSegs segs).map (Except.map (fun r => t ++ r))
  | Seg.nep t :: segs =>
    match translit_nep t with
    | none => none
    | some (Except.error e) => some (Except.error e)
    | some (Except.ok w) => (renderSegs segs).map (Except.map (fun r => w ++ r))

/-- Embedding of `transliterate` of the source (the Unicode output mode of
the page).  A terminating run of the segmenter loop takes at most
`length + 1` iterations, since every iteration that recurses consumes at
least one character; `none` therefore means the Python loop diverges. -/
def transliterate (s : List Char) : PyRes (List Char) :=
  match segLoop (s.length + 1) s [] with
  | none => none
  | some segs => renderSegs segs

/-- Decimal digit characters of a number, most significant first: the
rendering of `ord(c)` inside the f-string of `encode_html`. -/
def decDigits (n : Nat) : List Char :=
  if n = 0 then ['0'] else (Nat.digits 10 n).reverse.map (fun d => Char.ofNat (48 + d))

/-- Embedding of `encode_html` of the source: every code point becomes a
decimal numeric character reference. -/
def encode_html (s : List Char) : List Char :=
  (s.map (fun c => '&' :: '#' :: (decDigits c.toNat ++ [';']))).flatten

/-- Value of a most-significant-first list of decimal digit characters. -/
def decVal (ds : List Char) : Nat :=
  ds.foldl (fun a c => 10 * a + (c.toNat - 48)) 0

/-- Modelled from the spec: the repository contains no decoder, but the spec
demands that Html mode be exactly reversible by "parsing the references back
to code points"; this is that parser.  It accepts exactly a concatenation of
`&#N;` references and maps each back to its code point. -/
def decodeRefs : Nat → List Char → Option (List Char)
  | 0, _ => none
  | _ + 1, [] => some []
  | fuel + 1, '&' :: '#' :: rest =>
    match rest.takeWhile Char.isDigit with
    | [] => none
    | _ :: _ =>
      match rest.dropWhile Char.isDigit with
      | ';' :: rest2 =>
        (decodeRefs fuel rest2).map
          (fun l => Char.ofNat (decVal (rest.takeWhile Char.isDigit)) :: l)
      | _ => none
  | _ + 1, _ => none

/-- Modelled from the spec: decoding a full reference string. -/
def decodeHtml (s : List Char) : Option (List Char) :=
  decodeRefs (s.length + 1) s

/-- A block of a transliterable span, as described by the spec's Word
Resolver contract: a maximal run of ASCII letters, or a single other
character. -/
inductive Blk where
  | run : List Char → Blk
  | chr : Char → Blk
deriving DecidableEq, Repr

/-- Decomposition of a span into maximal ASCII-letter runs and the remaining
single characters, in order. -/
def blocks : List Char → List Blk
  | [] => []
  | c :: rs =>
    if isAsciiLetter c then
      Blk.run ((c :: rs).takeWhile isAsciiLetter) :: blocks (rs.dropWhile isAsciiLetter)
    else
      Blk.chr c :: blocks rs
termination_by s => s.length
decreasing_by
  · simp only [List.length_cons]
    exact Nat.lt_succ_of_le (List.Sublist.length_le (List.dropWhile_sublist isAsciiLetter))
  · simp only [List.length_cons]
    exact Nat.lt_succ_self _

/-- Rendering of a block list according to the spec's Word Resolver
contract: letter runs go through `replace_word` (lexicon first, else the
syllable engine), every other character is copied through unchanged and is
never passed to the engine. -/
def renderBlocks : List Blk → PyRes (List Char)
  | [] => some (Except.ok [])
  | Blk.chr c :: bs => (renderBlocks bs).map (Except.map (fun r => c :: r))
  | Blk.run w :: bs =>
    match replace_word w with
    | none => none
    | some (Except.error e) => some (Except.error e)
    | some (Except.ok t) => (renderBlocks bs).map (Except.map (fun r => t ++ r))

/-! ## Segmenter lemmas -/

theorem segLoop_openBrace (rest : List Char) (hni : '\x7d' ∉ rest) :
    ∀ fuel acc, segLoop fuel ('\x7b' :: rest) acc = none := by
  intro fuel
  induction fuel with
  | zero => intro acc; rfl
  | succ f ih =>
    intro acc
    simp only [segLoop, hni, and_false, if_false]
    simp only [List.dropWhile_cons, List.takeWhile_cons, bne_self_eq_false,
      Bool.false_eq_true, if_false]
    exact ih _

theorem dropWhile_reach (l r : List Char) (x : Char) (h : ∀ c ∈ l, c ≠ x) :
    (l ++ x :: r).dropWhile (fun c => c != x) = x :: r := by
  induction l with
  | nil => simp [List.dropWhile_cons]
  | cons c l ih =>
    have hb : (c != x) = true := bne_iff_ne.mpr (h c (List.mem_cons_self c l))
    simp only [List.cons_append, List.dropWhile_cons, hb, if_true]
    exact ih (fun d hd => h d (List.mem_cons_of_mem c hd))

theorem takeWhile_reach (l r : List Char) (x : Char) (h : ∀ c ∈ l, c ≠ x) :
    (l ++ x :: r).takeWhile (fun c => c != x) = l := by
  induction l with
  | nil => simp [List.takeWhile_cons]
  | cons c l ih =>
    have hb : (c != x) = true := bne_iff_ne.mpr (h c (List.mem_cons_self c l))
    simp only [List.cons_append, List.takeWhile_cons, hb, if_true]
    exact congrArg (c :: ·) (ih (fun d hd => h d (List.mem_cons_of_mem c hd)))

theorem segLoop_reach (pre rest : List Char) (hpre : '\x7b' ∉ pre)
    (hni : '\x7d' ∉ rest) :
    ∀ fuel acc, segLoop fuel (pre ++ '\x7b' :: rest) acc = none := by
  cases pre with
  | nil => exact segLoop_openBrace rest hni
  | cons p pre =>
    intro fuel acc
    cases fuel with
    | zero => rfl
    | succ f =>
      have hp : p ≠ '\x7b' := fun h => hpre (h ▸ List.mem_cons_self p pre)
      have hmem : ∀ c ∈ p :: pre, c ≠ '\x7b' := by
        intro c hc he
        exact hpre (he ▸ hc)
      simp only [List.cons_append, segLoop, hp, false_and, if_false]
      simp only [List.append_eq]
      have hdw := dropWhile_reach (p :: pre) rest '\x7b' hmem
      simp only [List.cons_append, List.append_eq] at hdw
      rw [hdw]
      exact segLoop_openBrace rest hni f _

/-! ## Claims settled by the segmenter bug and by direct evaluation -/

/-- Claim C1: the spec asserts totality of `transliterate` — for every input
it returns a defined result without raising and terminates.  The code
violates this twice: on the input consisting of a single opening brace the
segmenter loop never terminates (at every fuel the loop is still running),
and on the input "namaskar" the engine raises `UnboundLocalError` inside
`push_consonant`. -/
theorem claim_C1 :
    (∀ fuel acc, segLoop fuel ['\x7b'] acc = none) ∧
    transliterate ['\x7b'] = none ∧
    transliterate "namaskar".data = some (Except.error PyErr.unboundLocal) := by
  refine ⟨fun fuel acc => segLoop_openBrace [] (by simp) fuel acc, ?_, by rfl⟩
  simp only [transliterate, segLoop_openBrace [] (by simp)]

/-- Claim C2: the spec says an opening brace with no later closing brace is
treated as ordinary transliterable text and scanning still terminates.  In
the code, `find` restarts at the position of that opening brace, the cursor
never advances, and the loop never terminates: for every prefix without an
opening brace and every tail without a closing brace, the segmenter returns
no result at any fuel, and `transliterate` has no defined output. -/
theorem claim_C2 (pre rest : List Char) (hpre : '\x7b' ∉ pre) (hni : '\x7d' ∉ rest) :
    (∀ fuel acc, segLoop fuel (pre ++ '\x7b' :: rest) acc = none) ∧
    transliterate (pre ++ '\x7b' :: rest) = none := by
  refine ⟨segLoop_reach pre rest hpre hni, ?_⟩
  simp only [transliterate, segLoop_reach pre rest hpre hni]

theorem claim_C2_witness :
    ('\x7b' ∉ "ab".data) ∧ ('\x7d' ∉ "c".data) ∧
    transliterate ("ab".data ++ '\x7b' :: "c".data) = none :=
  ⟨by decide, by decide, (claim_C2 "ab".data "c".data (by decide) (by decide)).2⟩

/-- Claim C3: the spec asserts `transliterate "pratishat/ko"` equals the
Devanagari rendering of "pratishatko" with a ZWNJ at the position of the
slash.  In the code the call instead raises `UnboundLocalError` (the first
consonant-plus-vowel syllable of "pratishat" calls `push_consonant`); and
the slash, not being an ASCII letter, would in any case be copied through
verbatim by the word resolver rather than reach the ZWNJ rule (claim C4). -/
theorem claim_C3 :
    transliterate "pratishat/ko".data = some (Except.error PyErr.unboundLocal) := by
  rfl

/-- Claim C9: the one-letter word "k" is a lexicon key, so the resolver
substitutes the lexicon value and the phonetic engine is bypassed; the
result is the lexicon's string, not the bare consonant glyph. -/
theorem claim_C9 :
    transliterate "k".data = some (Except.ok "के".data) ∧ "के".data ≠ "क".data :=
  ⟨by rfl, by decide⟩

/-- Claim C10: on the empty input the segmenter produces no spans and
`transliterate` returns the empty string. -/
theorem claim_C10 : transliterate "".data = some (Except.ok "".data) := by
  rfl

theorem segLoop_acc (fuel : Nat) :
    ∀ (s : List Char) (acc : List Seg),
      segLoop fuel s acc = (segLoop fuel s []).map (fun segs => acc ++ segs) := by
  induction fuel with
  | zero => intro s acc; rfl
  | succ f ih =>
    intro s acc
    cases s with
    | nil => simp [segLoop]
    | cons ch rest =>
      by_cases hcond : ch = '\x7b' ∧ '\x7d' ∈ rest
      · simp only [segLoop, if_pos hcond]
        rw [ih _ (acc ++ [Seg.raw (rest.takeWhile (fun c => c != '\x7d'))]),
          ih _ ([] ++ [Seg.raw (rest.takeWhile (fun c => c != '\x7d'))])]
        cases segLoop f ((rest.dropWhile (fun c => c != '\x7d')).tail) [] with
        | none => rfl
        | some segs => simp
      · simp only [segLoop, if_neg hcond]
        cases hdw : (ch :: rest).dropWhile (fun c => c != '\x7b') with
        | nil => simp
        | cons d ds =>
          rw [ih _ (acc ++ [Seg.nep ((ch :: rest).takeWhile (fun c => c != '\x7b'))]),
            ih _ ([] ++ [Seg.nep ((ch :: rest).takeWhile (fun c => c != '\x7b'))])]
          cases segLoop f (d :: ds) [] with
          | none => rfl
          | some segs => simp

theorem segLoop_fuel :
    ∀ (n : Nat) (s : List Char) (f₁ f₂ : Nat) (acc : List Seg),
      s.length ≤ n → s.length < f₁ → s.length < f₂ →
      segLoop f₁ s acc = segLoop f₂ s acc := by
  intro n
  induction n with
  | zero =>
    intro s f₁ f₂ acc hn h1 h2
    cases s with
    | nil =>
      obtain ⟨k, rfl⟩ : ∃ k, f₁ = k + 1 := ⟨f₁ - 1, by omega⟩
      obtain ⟨m, rfl⟩ : ∃ m, f₂ = m + 1 := ⟨f₂ - 1, by omega⟩
      rfl
    | cons ch rest => simp at hn
  | succ n ih =>
    intro s f₁ f₂ acc hn h1 h2
    cases s with
    | nil =>
      obtain ⟨k, rfl⟩ : ∃ k, f₁ = k + 1 := ⟨f₁ - 1, by omega⟩
      obtain ⟨m, rfl⟩ : ∃ m, f₂ = m + 1 := ⟨f₂ - 1, by omega⟩
      rfl
    | cons ch rest =>
      obtain ⟨k, rfl⟩ : ∃ k, f₁ = k + 1 := ⟨f₁ - 1, by omega⟩
      obtain ⟨m, rfl⟩ : ∃ m, f₂ = m + 1 := ⟨f₂ - 1, by omega⟩
      simp only [List.length_cons] at hn h1 h2
      by_cases hcond : ch = '\x7b' ∧ '\x7d' ∈ rest
      · simp only [segLoop, if_pos hcond]
        have ha : ((rest.dropWhile (fun c => c != '\x7d')).tail).length ≤ rest.length := by
          have h3 := List.Sublist.length_le (List.dropWhile_sublist (l := rest)
            (fun c => c != '\x7d'))
          have h4 := List.length_tail (rest.dropWhile (fun c => c != '\x7d'))
          omega
        exact ih _ k m _ (by omega) (by omega) (by omega)
      · by_cases hch : ch = '\x7b'
        · have hni : '\x7d' ∉ rest := fun h => hcond ⟨hch, h⟩
          subst hch
          rw [segLoop_openBrace rest hni, segLoop_openBrace rest hni]
        · have hb : (ch != '\x7b') = true := bne_iff_ne.mpr hch
          simp only [segLoop, if_neg hcond, List.dropWhile_cons, List.takeWhile_cons, hb,
            if_true]
          cases hdw : rest.dropWhile (fun c => c != '\x7b') with
          | nil => rfl
          | cons d ds =>
            have ha : (d :: ds).length ≤ rest.length := by
              have h3 := List.Sublist.length_le (List.dropWhile_sublist (l := rest)
                (fun c => c != '\x7b'))
              rw [hdw] at h3
              exact h3
            exact ih _ k m _ (by omega) (by omega) (by omega)

/-- Claim C6: the contents of a brace-delimited literal are copied verbatim
with the braces stripped, and the rest of the input is processed as if the
literal were not there. -/
theorem claim_C6 (mid rest : List Char) (hmid : '\x7d' ∉ mid) :
    transliterate ('\x7b' :: (mid ++ '\x7d' :: rest)) =
      (transliterate rest).map (Except.map (fun r => mid ++ r)) := by
  have hmem : ∀ c ∈ mid, c ≠ '\x7d' := fun c hc he => hmid (he ▸ hc)
  have hcond : ('\x7b' : Char) = '\x7b' ∧ '\x7d' ∈ mid ++ '\x7d' :: rest :=
    ⟨rfl, List.mem_append_right mid (List.mem_cons_self _ _)⟩
  simp only [transliterate, List.length_cons, List.length_append]
  rw [segLoop]
  rw [if_pos hcond]
  rw [dropWhile_reach mid rest '\x7d' hmem, takeWhile_reach mid rest '\x7d' hmem]
  simp only [List.tail_cons]
  rw [segLoop_fuel rest.length rest _ (rest.length + 1) _ (Nat.le_refl _) (by omega)
    (by omega)]
  rw [segLoop_acc]
  cases hres : segLoop (rest.length + 1) rest [] with
  | none => rfl
  | some segs => simp [renderSegs]

theorem claim_C6_witness :
    ('\x7d' ∉ "ABC123!".data) ∧
    transliterate "\x7bABC123!\x7d".data = some (Except.ok "ABC123!".data) := by
  refine ⟨by decide, ?_⟩
  have h := claim_C6 "ABC123!".data [] (by decide)
  exact h.trans (by rfl)

/-- Claim C5: a maximal letter run whose lowercase form is a lexicon key is
replaced by the mapped Devanagari string directly; the original casing has
no effect; in particular "ke" and "KE" both map to the same lexicon value
through the public entry point. -/
theorem claim_C5 :
    (∀ w₁ w₂ : List Char, w₁.map pyLowerChar = w₂.map pyLowerChar →
      (LEXICON.find? (fun p => p.1 == w₁.map pyLowerChar)).isSome →
      replace_word w₁ = replace_word w₂) ∧
    (∀ (w : List Char) (p : List Char × List Char),
      LEXICON.find? (fun q => q.1 == w.map pyLowerChar) = some p →
      replace_word w = some (Except.ok p.2)) ∧
    transliterate "ke".data = some (Except.ok "के".data) ∧
    transliterate "KE".data = some (Except.ok "के".data) := by
  refine ⟨?_, ?_, by rfl, by rfl⟩
  · intro w₁ w₂ hmap hsome
    obtain ⟨p, hp⟩ := Option.isSome_iff_exists.mp hsome
    have hp₂ : LEXICON.find? (fun q => q.1 == w₂.map pyLowerChar) = some p := by
      rw [← hmap]
      exact hp
    simp only [replace_word, hp, hp₂]
  · intro w p hp
    simp only [replace_word, hp]

theorem claim_C5_witness :
    ("KE".data.map pyLowerChar = "ke".data.map pyLowerChar) ∧
    replace_word "KE".data = replace_word "ke".data ∧
    replace_word "KE".data = some (Except.ok "के".data) :=
  ⟨by decide, claim_C5.1 "KE".data "ke".data (by decide) (by decide),
    claim_C5.2.1 "KE".data (kv "ke" "के") (by decide)⟩

/-! ## Word-resolver lemmas -/

theorem py_sub_fuel (repl : List Char → PyRes (List Char)) :
    ∀ (n : Nat) (s : List Char) (f₁ f₂ : Nat),
      s.length ≤ n → s.length < f₁ → s.length < f₂ →
      py_sub_letters repl f₁ s = py_sub_letters repl f₂ s := by
  intro n
  induction n with
  | zero =>
    intro s f₁ f₂ hn h1 h2
    cases s with
    | nil =>
      obtain ⟨k, rfl⟩ : ∃ k, f₁ = k + 1 := ⟨f₁ - 1, by omega⟩
      obtain ⟨m, rfl⟩ : ∃ m, f₂ = m + 1 := ⟨f₂ - 1, by omega⟩
      rfl
    | cons c rs => simp at hn
  | succ n ih =>
    intro s f₁ f₂ hn h1 h2
    cases s with
    | nil =>
      obtain ⟨k, rfl⟩ : ∃ k, f₁ = k + 1 := ⟨f₁ - 1, by omega⟩
      obtain ⟨m, rfl⟩ : ∃ m, f₂ = m + 1 := ⟨f₂ - 1, by omega⟩
      rfl
    | cons c rs =>
      obtain ⟨k, rfl⟩ : ∃ k, f₁ = k + 1 := ⟨f₁ - 1, by omega⟩
      obtain ⟨m, rfl⟩ : ∃ m, f₂ = m + 1 := ⟨f₂ - 1, by omega⟩
      simp only [List.length_cons] at hn h1 h2
      by_cases hc : isAsciiLetter c
      · simp only [py_sub_letters, hc, if_true]
        have ha : ((c :: rs).dropWhile isAsciiLetter).length ≤ rs.length := by
          rw [List.dropWhile_cons_of_pos hc]
          exact List.Sublist.length_le (List.dropWhile_sublist isAsciiLetter)
        cases repl ((c :: rs).takeWhile isAsciiLetter) with
        | none => rfl
        | some e =>
          cases e with
          | error er => rfl
          | ok w =>
            rw [ih _ k m (by omega) (by omega) (by omega)]
      · simp only [py_sub_letters, hc, Bool.false_eq_true, if_false]
        rw [ih rs k m (by omega) (by omega) (by omega)]

theorem translit_nep_blocks_aux :
    ∀ (n : Nat) (s : List Char), s.length ≤ n →
      translit_nep s = renderBlocks (blocks s) := by
  intro n
  induction n with
  | zero =>
    intro s hn
    cases s with
    | nil => simp [translit_nep, py_sub_letters, blocks, renderBlocks]
    | cons c rs => simp at hn
  | succ n ih =>
    intro s hn
    cases s with
    | nil => simp [translit_nep, py_sub_letters, blocks, renderBlocks]
    | cons c rs =>
      simp only [List.length_cons] at hn
      by_cases hc : isAsciiLetter c
      · have hdrop : ((c :: rs).dropWhile isAsciiLetter) = rs.dropWhile isAsciiLetter :=
          List.dropWhile_cons_of_pos hc
        have ha : (rs.dropWhile isAsciiLetter).length ≤ rs.length :=
          List.Sublist.length_le (List.dropWhile_sublist isAsciiLetter)
        simp only [translit_nep, py_sub_letters, hc, if_true, blocks, renderBlocks,
          List.length_cons, hdrop]
        cases replace_word ((c :: rs).takeWhile isAsciiLetter) with
        | none => rfl
        | some e =>
          cases e with
          | error er => rfl
          | ok w =>
            rw [py_sub_fuel replace_word (rs.dropWhile isAsciiLetter).length
              (rs.dropWhile isAsciiLetter) (rs.length + 1)
              ((rs.dropWhile isAsciiLetter).length + 1) (Nat.le_refl _) (by omega)
              (by omega)]
            rw [show py_sub_letters replace_word ((rs.dropWhile isAsciiLetter).length + 1)
              (rs.dropWhile isAsciiLetter) = translit_nep (rs.dropWhile isAsciiLetter) from
              rfl]
            rw [ih _ (by omega)]
      · simp only [translit_nep, py_sub_letters, hc, Bool.false_eq_true, if_false, blocks,
          renderBlocks, List.length_cons]
        rw [show py_sub_letters replace_word (rs.length + 1) rs = translit_nep rs from rfl]
        rw [ih _ (by omega)]

theorem blocks_run_letters_aux :
    ∀ (n : Nat) (s : List Char), s.length ≤ n →
      ∀ w, Blk.run w ∈ blocks s → ∀ c ∈ w, isAsciiLetter c = true := by
  intro n
  induction n with
  | zero =>
    intro s hn w hw
    cases s with
    | nil => simp [blocks] at hw
    | cons c rs => simp at hn
  | succ n ih =>
    intro s hn w hw c hc
    cases s with
    | nil => simp [blocks] at hw
    | cons a rs =>
      simp only [List.length_cons] at hn
      by_cases ha : isAsciiLetter a
      · have hbeq : blocks (a :: rs) =
            Blk.run ((a :: rs).takeWhile isAsciiLetter) :: blocks (rs.dropWhile isAsciiLetter) := by
          simp only [blocks]
          rw [if_pos ha]
        rw [hbeq, List.mem_cons] at hw
        cases hw with
        | inl h =>
          have hweq : w = (a :: rs).takeWhile isAsciiLetter := by
            injection h with h
          subst hweq
          exact List.all_eq_true.mp (List.all_takeWhile) c hc
        | inr h =>
          have hlen : (rs.dropWhile isAsciiLetter).length ≤ n := by
            have := List.Sublist.length_le (List.dropWhile_sublist (l := rs) isAsciiLetter)
            omega
          exact ih _ hlen w h c hc
      · have hbeq : blocks (a :: rs) = Blk.chr a :: blocks rs := by
          simp only [blocks]
          rw [if_neg ha]
        rw [hbeq, List.mem_cons] at hw
        cases hw with
        | inl h => exact absurd h (by simp)
        | inr h => exact ih rs (by omega) w h c hc

/-! ## The star entries of the specials table never fire on letter runs -/

theorem S_ORDER_eq : S_ORDER = ["ri^".data, "**".data, "om".data, "rr".data, "*".data] := by
  rfl

theorem S_ORDER_NS_eq : S_ORDER_NS = ["ri^".data, "om".data, "rr".data] := by
  rfl

theorem isAsciiLetter_ne_star {c : Char} (h : isAsciiLetter c = true) : c ≠ '*' :=
  fun he => absurd (he ▸ h) (by decide)

theorem firstMatchKey_S_no_star (ch : Char) (rs : List Char)
    (h : isAsciiLetter ch = true) :
    firstMatchKey S_ORDER (ch :: rs) = firstMatchKey S_ORDER_NS (ch :: rs) := by
  have hne : ('*' == ch) = false := by
    have := isAsciiLetter_ne_star h
    simp [this]
    exact fun he => this he.symm
  have h1 : leadsWith "*".data (ch :: rs) = false := by
    simp [leadsWith, show ("*".data : List Char) = ['*'] from rfl, hne]
  have h2 : leadsWith "**".data (ch :: rs) = false := by
    simp [leadsWith, show ("**".data : List Char) = ['*', '*'] from rfl, hne]
  simp only [firstMatchKey]
  rw [S_ORDER_eq, S_ORDER_NS_eq]
  cases hri : leadsWith "ri^".data (ch :: rs) with
  | true =>
    conv_lhs => rw [List.find?_cons_of_pos _ (by simpa using hri)]
    conv_rhs => rw [List.find?_cons_of_pos _ (by simpa using hri)]
  | false =>
    conv_lhs =>
      rw [List.find?_cons_of_neg _ (by simpa using hri),
        List.find?_cons_of_neg _ (by simpa using h2)]
    conv_rhs => rw [List.find?_cons_of_neg _ (by simpa using hri)]
    cases hom : leadsWith "om".data (ch :: rs) with
    | true =>
      conv_lhs => rw [List.find?_cons_of_pos _ (by simpa using hom)]
      conv_rhs => rw [List.find?_cons_of_pos _ (by simpa using hom)]
    | false =>
      conv_lhs => rw [List.find?_cons_of_neg _ (by simpa using hom)]
      conv_rhs => rw [List.find?_cons_of_neg _ (by simpa using hom)]
      cases hrr : leadsWith "rr".data (ch :: rs) with
      | true =>
        conv_lhs => rw [List.find?_cons_of_pos _ (by simpa using hrr)]
        conv_rhs => rw [List.find?_cons_of_pos _ (by simpa using hrr)]
      | false =>
        conv_lhs =>
          rw [List.find?_cons_of_neg _ (by simpa using hrr),
            List.find?_cons_of_neg _ (by simpa using h1)]
        conv_rhs => rw [List.find?_cons_of_neg _ (by simpa using hrr)]

theorem ts_engine_no_star :
    ∀ (fuel : Nat) (w out : List Char), (∀ c ∈ w, isAsciiLetter c = true) →
      ts_engine S_ORDER SPECIALS fuel w out = ts_engine S_ORDER_NS SPECIALS_NS fuel w out := by
  intro fuel
  induction fuel with
  | zero => intro w out hw; rfl
  | succ f ih =>
    intro w out hw
    cases w with
    | nil => rfl
    | cons ch rs =>
      have hch : isAsciiLetter ch = true := hw ch (List.mem_cons_self _ _)
      have hrs : ∀ c ∈ rs, isAsciiLetter c = true :=
        fun c hc => hw c (List.mem_cons_of_mem _ hc)
      have hdrop : ∀ nn : Nat, ∀ c ∈ List.drop nn (ch :: rs), isAsciiLetter c = true :=
        fun nn c hc => hw c (List.mem_of_mem_drop hc)
      simp only [ts_engine]
      by_cases hc1 : ch = '/'
      · rw [if_pos hc1, if_pos hc1]
        exact ih rs _ hrs
      rw [if_neg hc1, if_neg hc1]
      by_cases hc2 : ch = '\\'
      · rw [if_pos hc2, if_pos hc2]
        exact ih rs _ hrs
      rw [if_neg hc2, if_neg hc2]
      by_cases hc3 : is_alpha_num ch = false ∧ ch ≠ '*'
      · rw [if_pos hc3, if_pos hc3]
        exact ih rs _ hrs
      rw [if_neg hc3, if_neg hc3]
      rw [firstMatchKey_S_no_star ch rs hch]
      cases hfm : firstMatchKey S_ORDER_NS (ch :: rs) with
      | some k =>
        have hk : k ∈ S_ORDER_NS := List.mem_of_find?_eq_some hfm
        have hlk : lookupTab SPECIALS k = lookupTab SPECIALS_NS k := by
          rw [S_ORDER_NS_eq] at hk
          simp only [List.mem_cons, List.not_mem_nil, or_false] at hk
          rcases hk with hk | hk | hk <;> subst hk <;> rfl
        simp only [hlk]
        exact ih _ _ (hdrop k.length)
      | none =>
        by_cases hc4 : (ch = 'n' ∨ ch = 'm') ∧ nasalNext rs = true
        · rw [if_pos hc4, if_pos hc4]
          exact ih rs _ hrs
        rw [if_neg hc4, if_neg hc4]
        dsimp only
        cases firstMatchKey C_ORDER (ch :: rs) with
        | some ck =>
          dsimp only
          cases firstMatchKey V_ORDER (List.drop ck.length (ch :: rs)) with
          | some vk => rfl
          | none =>
            dsimp only
            cases firstMatchKey C_ORDER (List.drop ck.length (ch :: rs)) with
            | some ck2 => exact ih _ _ (hdrop ck.length)
            | none => rfl
        | none =>
          dsimp only
          cases firstMatchKey V_ORDER (ch :: rs) with
          | some vk => exact ih _ _ (hdrop vk.length)
          | none => exact ih rs _ hrs

theorem replace_word_no_star (w : List Char) (hw : ∀ c ∈ w, isAsciiLetter c = true) :
    replace_word w = replace_wordNS w := by
  simp only [replace_word, replace_wordNS]
  cases LEXICON.find? (fun p => p.1 == w.map pyLowerChar) with
  | some p => rfl
  | none => exact ts_engine_no_star (w.length + 1) w [] hw

theorem py_sub_no_star :
    ∀ (fuel : Nat) (s : List Char),
      py_sub_letters replace_word fuel s = py_sub_letters replace_wordNS fuel s := by
  intro fuel
  induction fuel with
  | zero => intro s; rfl
  | succ f ih =>
    intro s
    cases s with
    | nil => rfl
    | cons c rs =>
      by_cases hc : isAsciiLetter c
      · simp only [py_sub_letters, hc, if_true]
        rw [replace_word_no_star ((c :: rs).takeWhile isAsciiLetter)
          (List.all_eq_true.mp List.all_takeWhile)]
        cases replace_wordNS ((c :: rs).takeWhile isAsciiLetter) with
        | none => rfl
        | some e =>
          cases e with
          | error er => rfl
          | ok w => rw [ih]
      · simp only [py_sub_letters, hc, Bool.false_eq_true, if_false]
        rw [ih]

/-- Claim C4: the word-resolver boundary.  First conjunct: `translit_nep`
computes exactly the blockwise rendering of its span, in which every
character outside a maximal ASCII-letter run is copied through unchanged
(`Blk.chr` case of `renderBlocks`) and only letter runs are handed to
`replace_word`.  Second conjunct: every run block consists of ASCII letters
only, so the syllable engine is only ever invoked on pure letter runs.
Third conjunct: consequently deleting the `*` and `**` entries of the
specials table is unobservable through this call path — those entries can
never fire. -/
theorem claim_C4 :
    (∀ s : List Char, translit_nep s = renderBlocks (blocks s)) ∧
    (∀ (s w : List Char), Blk.run w ∈ blocks s → ∀ c ∈ w, isAsciiLetter c = true) ∧
    (∀ s : List Char, translit_nep s = translit_nepNS s) :=
  ⟨fun s => translit_nep_blocks_aux s.length s (Nat.le_refl _),
   fun s w hw => blocks_run_letters_aux s.length s (Nat.le_refl _) w hw,
   fun s => py_sub_no_star (s.length + 1) s⟩

theorem claim_C4_witness :
    (Blk.run "ab".data ∈ blocks "ab".data) ∧ isAsciiLetter 'a' = true := by
  have h1 : blocks "ab".data = [Blk.run "ab".data] := by
    simp only [blocks]
    rw [if_pos (by decide : isAsciiLetter 'a' = true)]
    rw [show List.dropWhile isAsciiLetter ['b'] = [] from by decide,
      show List.takeWhile isAsciiLetter ['a', 'b'] = "ab".data from by decide]
    simp only [blocks]
  have hmem : Blk.run "ab".data ∈ blocks "ab".data := by
    rw [h1]
    exact List.mem_singleton_self _
  exact ⟨hmem, claim_C4.2.1 "ab".data "ab".data hmem 'a' (by decide)⟩

/-! ## Html encoding round trip -/

theorem decDigit_isDigit {d : Nat} (hd : d < 10) :
    (Char.ofNat (48 + d)).isDigit = true := by
  interval_cases d <;> decide

theorem decDigit_toNat {d : Nat} (hd : d < 10) : (Char.ofNat (48 + d)).toNat = 48 + d := by
  interval_cases d <;> decide

theorem decDigits_ne_nil (n : Nat) : decDigits n ≠ [] := by
  unfold decDigits
  split
  · simp
  · simp [Nat.digits_ne_nil_iff_ne_zero]
    assumption

theorem decDigits_all_digit (n : Nat) : ∀ c ∈ decDigits n, c.isDigit = true := by
  intro c hc
  unfold decDigits at hc
  split at hc
  · simp at hc
    subst hc
    decide
  · simp only [List.mem_map, List.mem_reverse] at hc
    obtain ⟨d, hd, rfl⟩ := hc
    exact decDigit_isDigit (Nat.digits_lt_base (by omega) hd)

theorem foldl_digits_map (l : List Nat) (h : ∀ d ∈ l, d < 10) :
    ∀ a : Nat,
      (l.map (fun d => Char.ofNat (48 + d))).foldl (fun x c => 10 * x + (c.toNat - 48)) a =
        l.foldl (fun x d => 10 * x + d) a := by
  induction l with
  | nil => intro a; rfl
  | cons d l ih =>
    intro a
    have hd : d < 10 := h d (List.mem_cons_self _ _)
    simp only [List.map_cons, List.foldl_cons, decDigit_toNat hd]
    rw [show 48 + d - 48 = d from by omega]
    exact ih (fun e he => h e (List.mem_cons_of_mem _ he)) _

theorem foldl_reverse_ofDigits (l : List Nat) :
    ∀ a : Nat,
      l.reverse.foldl (fun x d => 10 * x + d) a = a * 10 ^ l.length + Nat.ofDigits 10 l := by
  induction l with
  | nil => intro a; simp
  | cons d l ih =>
    intro a
    rw [List.reverse_cons, List.foldl_append, ih a]
    simp only [List.foldl_cons, List.foldl_nil, List.length_cons, Nat.ofDigits_cons]
    ring

theorem decVal_decDigits (n : Nat) : decVal (decDigits n) = n := by
  unfold decVal decDigits
  split
  · subst n
    decide
  · rw [foldl_digits_map (Nat.digits 10 n).reverse
      (fun d hd => Nat.digits_lt_base (by omega) (List.mem_reverse.mp hd))]
    rw [foldl_reverse_ofDigits (Nat.digits 10 n) 0]
    simp [Nat.ofDigits_digits]

theorem encode_html_cons (c : Char) (u : List Char) :
    encode_html (c :: u) =
      '&' :: '#' :: (decDigits c.toNat ++ (';' :: encode_html u)) := by
  simp [encode_html]

theorem decodeRefs_encode :
    ∀ (u : List Char) (f : Nat), (encode_html u).length < f →
      decodeRefs f (encode_html u) = some u := by
  intro u
  induction u with
  | nil =>
    intro f hf
    obtain ⟨k, rfl⟩ : ∃ k, f = k + 1 := ⟨f - 1, by omega⟩
    rfl
  | cons c u ih =>
    intro f hf
    rw [encode_html_cons] at hf ⊢
    obtain ⟨k, rfl⟩ : ∃ k, f = k + 1 := ⟨f - 1, by omega⟩
    have hdig : ∀ d ∈ decDigits c.toNat, Char.isDigit d = true := decDigits_all_digit _
    have htk : (decDigits c.toNat ++ (';' :: encode_html u)).takeWhile Char.isDigit =
        decDigits c.toNat := by
      rw [List.takeWhile_append_of_pos hdig]
      simp [List.takeWhile_cons]
    have hdr : (decDigits c.toNat ++ (';' :: encode_html u)).dropWhile Char.isDigit =
        ';' :: encode_html u := by
      rw [List.dropWhile_append_of_pos hdig]
      simp [List.dropWhile_cons]
    simp only [decodeRefs, htk, hdr]
    cases hne : decDigits c.toNat with
    | nil => exact absurd hne (decDigits_ne_nil _)
    | cons d ds =>
      rw [← hne, decVal_decDigits, Char.ofNat_toNat]
      have hlen : (encode_html u).length < k := by
        have h1 : 1 ≤ (decDigits c.toNat).length := by
          cases hdd : decDigits c.toNat with
          | nil => exact absurd hdd (decDigits_ne_nil _)
          | cons x xs => simp
        simp only [List.length_cons, List.length_append] at hf
        omega
      rw [ih k hlen, hne]
      rfl

/-- Claim C7: Html mode applies `encode_html` to the Unicode-mode result,
rewriting every code point as a decimal numeric character reference in
order; decoding the references (the spec-modelled parser `decodeHtml`)
reproduces the Unicode-mode output exactly. -/
theorem claim_C7 (s r : List Char) (_hs : transliterate s = some (Except.ok r)) :
    decodeHtml (encode_html r) = some r :=
  decodeRefs_encode r ((encode_html r).length + 1) (Nat.lt_succ_self _)

theorem claim_C7_witness :
    transliterate "ke".data = some (Except.ok "के".data) ∧
    decodeHtml (encode_html "के".data) = some "के".data :=
  ⟨by rfl, claim_C7 "ke".data "के".data (by rfl)⟩

/-! ## Match order: stable sort by descending length, longest match first -/

theorem insertByLen_perm (a : List Char) :
    ∀ l : List (List Char), (insertByLen a l).Perm (a :: l) := by
  intro l
  induction l with
  | nil => exact List.Perm.refl _
  | cons b l ih =>
    by_cases hble : b.length ≤ a.length
    · simp only [insertByLen, if_pos hble]
      exact List.Perm.refl _
    · simp only [insertByLen, if_neg hble]
      exact (ih.cons b).trans (List.Perm.swap a b l)

theorem get_token_order_perm (keys : List (List Char)) :
    (get_token_order keys).Perm keys := by
  induction keys with
  | nil => exact List.Perm.refl _
  | cons k ks ih =>
    exact (insertByLen_perm k (get_token_order ks)).trans (ih.cons k)

theorem insertByLen_pairwise (a : List Char) :
    ∀ l : List (List Char), l.Pairwise (fun x y => y.length ≤ x.length) →
      (insertByLen a l).Pairwise (fun x y => y.length ≤ x.length) := by
  intro l
  induction l with
  | nil => intro _; simp [insertByLen]
  | cons b l ih =>
    intro h
    rw [List.pairwise_cons] at h
    by_cases hble : b.length ≤ a.length
    · simp only [insertByLen, if_pos hble]
      rw [List.pairwise_cons]
      refine ⟨?_, List.pairwise_cons.mpr h⟩
      intro x hx
      rcases List.mem_cons.mp hx with hx | hx
      · subst hx; exact hble
      · exact Nat.le_trans (h.1 x hx) hble
    · simp only [insertByLen, if_neg hble]
      rw [List.pairwise_cons]
      refine ⟨?_, ih h.2⟩
      intro x hx
      rcases List.mem_cons.mp ((insertByLen_perm a l).mem_iff.mp hx) with hx3 | hx3
      · subst hx3; omega
      · exact h.1 x hx3

theorem get_token_order_pairwise (keys : List (List Char)) :
    (get_token_order keys).Pairwise (fun x y => y.length ≤ x.length) := by
  induction keys with
  | nil => simp [get_token_order]
  | cons k ks ih => exact insertByLen_pairwise k (get_token_order ks) ih

theorem insertByLen_filter (a : List Char) (n : Nat) :
    ∀ l : List (List Char),
      (insertByLen a l).filter (fun k => k.length == n) =
        if a.length = n then a :: l.filter (fun k => k.length == n)
        else l.filter (fun k => k.length == n) := by
  intro l
  induction l with
  | nil =>
    by_cases hn : a.length = n <;> simp [insertByLen, List.filter_cons, hn]
  | cons b l ih =>
    by_cases hble : b.length ≤ a.length
    · simp only [insertByLen, if_pos hble]
      by_cases hn : a.length = n <;> simp [List.filter_cons, hn]
    · simp only [insertByLen, if_neg hble]
      by_cases hn : a.length = n
      · have hbn : (b.length == n) = false := by
          simp only [beq_eq_false_iff_ne]
          omega
        simp [List.filter_cons, hbn, ih, hn]
      · simp [List.filter_cons, ih, hn]

theorem get_token_order_filter (keys : List (List Char)) (n : Nat) :
    (get_token_order keys).filter (fun k => k.length == n) =
      keys.filter (fun k => k.length == n) := by
  induction keys with
  | nil => rfl
  | cons k ks ih =>
    show (insertByLen k (get_token_order ks)).filter (fun k => k.length == n) = _
    rw [insertByLen_filter]
    by_cases hn : k.length = n
    · simp [List.filter_cons, hn, ih]
    · simp [List.filter_cons, hn, ih]

theorem leadsWith_eq_of_length :
    ∀ (u v s : List Char), leadsWith u s = true → leadsWith v s = true →
      u.length = v.length → u = v := by
  intro u
  induction u with
  | nil =>
    intro v s _ _ hlen
    cases v with
    | nil => rfl
    | cons b vs => simp at hlen
  | cons a us ih =>
    intro v s hu hv hlen
    cases v with
    | nil => simp at hlen
    | cons b vs =>
      cases s with
      | nil => simp [leadsWith] at hu
      | cons c ss =>
        simp only [leadsWith, Bool.and_eq_true, beq_iff_eq] at hu hv
        simp only [List.length_cons, Nat.add_right_cancel_iff] at hlen
        rw [hu.1, hv.1, ih vs ss hu.2 hv.2 hlen]

theorem firstMatchKey_longest :
    ∀ (ord : List (List Char)) (s k : List Char),
      ord.Pairwise (fun x y => y.length ≤ x.length) →
      firstMatchKey ord s = some k →
      ∀ k2 ∈ ord, leadsWith k2 s = true →
        k2.length ≤ k.length ∧ (k2.length = k.length → k2 = k) := by
  intro ord
  induction ord with
  | nil => intro s k _ hk; simp [firstMatchKey] at hk
  | cons a ord ih =>
    intro s k hpw hk k2 hk2 hlw
    rw [List.pairwise_cons] at hpw
    simp only [firstMatchKey] at hk
    cases hpa : leadsWith a s with
    | true =>
      rw [List.find?_cons_of_pos (p := fun k => leadsWith k s) _ (by simpa using hpa)] at hk
      injection hk with hk
      subst hk
      rcases List.mem_cons.mp hk2 with h | h
      · subst h; exact ⟨Nat.le_refl _, fun _ => rfl⟩
      · exact ⟨hpw.1 k2 h, fun hlen => leadsWith_eq_of_length k2 a s hlw hpa hlen⟩
    | false =>
      rw [List.find?_cons_of_neg (p := fun k => leadsWith k s) _ (by simpa using hpa)] at hk
      rcases List.mem_cons.mp hk2 with h | h
      · subst h; rw [hlw] at hpa; cases hpa
      · exact ih s k hpw.2 hk k2 h hlw

/-- Claim C8: first conjunct — the derived match order of any token table is
a permutation of its keys, sorted by weakly descending length, preserving
for every length the original declaration order of the keys of that length
(the filter equation: the stable tie-break).  Second conjunct — a lookup
through `firstMatchKey` on a so-ordered key list picks a longest key
matching at the cursor, and an equal-length matching key is necessarily the
very key picked (so the earlier-declared key trivially wins every tie). -/
theorem claim_C8 :
    (∀ keys : List (List Char),
      (get_token_order keys).Perm keys ∧
      (get_token_order keys).Pairwise (fun x y => y.length ≤ x.length) ∧
      (∀ n : Nat, (get_token_order keys).filter (fun k => k.length == n) =
        keys.filter (fun k => k.length == n))) ∧
    (∀ (ord : List (List Char)) (s k : List Char),
      ord.Pairwise (fun x y => y.length ≤ x.length) →
      firstMatchKey ord s = some k →
      ∀ k2 ∈ ord, leadsWith k2 s = true →
        k2.length ≤ k.length ∧ (k2.length = k.length → k2 = k)) :=
  ⟨fun keys => ⟨get_token_order_perm keys, get_token_order_pairwise keys,
    fun n => get_token_order_filter keys n⟩,
   firstMatchKey_longest⟩

theorem claim_C8_witness :
    C_ORDER.Pairwise (fun x y => y.length ≤ x.length) ∧
    firstMatchKey C_ORDER "chha".data = some "chh".data ∧
    ("ch".data ∈ C_ORDER ∧ leadsWith "ch".data "chha".data = true) ∧
    "ch".data.length ≤ "chh".data.length := by
  have hpw : C_ORDER.Pairwise (fun x y => y.length ≤ x.length) :=
    (claim_C8.1 (CONSONANTS.map Prod.fst)).2.1
  have hfm : firstMatchKey C_ORDER "chha".data = some "chh".data := by decide
  have hmem : "ch".data ∈ C_ORDER := by decide
  have hlw : leadsWith "ch".data "chha".data = true := by decide
  exact ⟨hpw, hfm, ⟨hmem, hlw⟩,
    (claim_C8.2 C_ORDER "chha".data "chh".data hpw hfm "ch".data hmem hlw).1⟩
